import Mathlib

/-!
Verification of `generate_acts.py` (geometry-of-truth repository).

The file shallowly embeds the program's core: the activation `Hook`, the
activation collector `get_acts`, the preference scorer `score_probs` /
`evaluate`, the sentinel resolution of `--layers`, and the 25-statement
chunking of the batch driver.  The external model runtime (tokenizer,
forward pass, per-block outputs) is an explicit environment `CModel`:
its functions may fail, mirroring the error conditions of the spec.
Activations are moved around but never computed with, so their scalar
type is a parameter `V`; the auxiliary second component of a block's
output tuple (discarded by the hook) is a parameter `A`.
-/

deriving instance DecidableEq for Except

namespace GenerateActs

/-- Python-level failures surfaced by the embedded code: tokenizer or
forward-pass exceptions, IndexError (bad layer index / empty tensor),
RuntimeError from stacking an empty list, TypeError (indexing a list with
a non-integer), ValueError (bad tuple unpack / `max` of empty list). -/
inductive Err where
  | tokenizeErr : Err
  | forwardErr : Err
  | indexErr : Err
  | stackErr : Err
  | typeErr : Err
  | valueErr : Err
deriving DecidableEq

/-- Python sequence indexing with an integer index: nonnegative indices
are bounds-checked, negative indices count from the end
(`model.model.layers[layer]`, line 55 of the source). -/
def pyIndex (i : ℤ) (n : ℕ) : Option ℕ :=
  if 0 ≤ i then (if i < (n : ℤ) then some i.toNat else none)
  else (if 0 ≤ i + (n : ℤ) then some (i + (n : ℤ)).toNat else none)

/-- The `Hook` class (source lines 16-21): a single mutable slot holding
the most recently captured layer output.  `out = None` initially. -/
structure Hook (V : Type) where
  out : Option (List (List V)) := none
deriving DecidableEq

/-- `Hook.__call__(self, module, module_inputs, module_outputs)`:
`self.out, _ = module_outputs` stores the primary (first) component of the
block's output pair and discards the auxiliary component.  The captured
primary output is the per-position list of hidden vectors; the batch
dimension of size one is elided. -/
def Hook.call {V A : Type} (_h : Hook V) (_module_inputs : List ℕ)
    (module_outputs : List (List V) × A) : Hook V :=
  { out := some module_outputs.1 }

/-- One registered forward hook: the resolved transformer-block index the
handle was registered on, together with the hook object.  The source keeps
`hooks` and `handles` as parallel lists (line 52); an entry of this list
stands for one (hook, handle) pair. -/
structure RegHook (V : Type) where
  block : ℕ
  hook : Hook V
deriving DecidableEq

/-- The model runtime seen by `get_acts` and the driver.  `nblocks` is
`len(model.model.layers)`; `tokenize` is `tokenizer.encode` (may raise);
`forward` is `model(input_ids)` (may raise); `blockOut b toks` is the
output tuple of transformer block `b` on input `toks` — first component
the per-position hidden states, second the auxiliary output the hook
discards. -/
structure CModel (V A : Type) where
  nblocks : ℕ
  tokenize : String → Except Err (List ℕ)
  forward : List ℕ → Except Err Unit
  blockOut : ℕ → List ℕ → List (List V) × A

/-- The registration loop of `get_acts` (source lines 52-56): for each
requested layer, resolve `model.model.layers[layer]` and register a fresh
hook.  An invalid index raises, leaving the hooks registered so far in
place: the second component reports the pending exception. -/
def registerLoop {V A : Type} (m : CModel V A) (acc : List (RegHook V)) :
    List ℤ → List (RegHook V) × Option Err
  | [] => (acc, none)
  | l :: rest =>
    match pyIndex l m.nblocks with
    | none => (acc, some Err.indexErr)
    | some b => registerLoop m (acc ++ [{ block := b, hook := {} }]) rest

/-- During `model(input_ids)` every registered hook fires: the execution
engine invokes `Hook.__call__` with the owning block's output. -/
def fireHooks {V A : Type} (m : CModel V A) (toks : List ℕ)
    (entries : List (RegHook V)) : List (RegHook V) :=
  entries.map fun e => { e with hook := e.hook.call toks (m.blockOut e.block toks) }

/-- `hook.out[0, -1]` (source line 65): read the captured tensor (TypeError
if the hook never fired, i.e. `out` is `None`), take batch row 0 (elided)
and the last position (IndexError on an empty sequence). -/
def hookLast {V : Type} (e : RegHook V) : Except Err (List V) :=
  match e.hook.out with
  | none => Except.error Err.typeErr
  | some mat =>
    match mat.getLast? with
    | none => Except.error Err.indexErr
    | some v => Except.ok v

/-- The last row of a captured output, with default for the impossible
empty case; used to state what `hookLast` returns on nonempty output. -/
def lastTok {V : Type} (mat : List (List V)) : List V :=
  mat.getLastD []

/-- Per-layer activation containers: the Python dict `acts`, as an ordered
association list (Python dicts preserve insertion order). -/
abbrev Dict (V : Type) : Type := List (ℤ × List (List V))

/-- Python dict assignment `d[k] = v`: replace in place if the key exists,
else append at the end. -/
def dictSet {V : Type} (d : Dict V) (k : ℤ) (v : List (List V)) : Dict V :=
  if d.any (fun q => q.1 = k) then d.map (fun q => if q.1 = k then (q.1, v) else q)
  else d ++ [(k, v)]

/-- `acts = {layer : [] for layer in layers}` (source line 59). -/
def dictInit {V : Type} (layers : List ℤ) : Dict V :=
  layers.foldl (fun d l => dictSet d l []) []

/-- `acts[layer].append(x)`: append to the list stored under key `k`. -/
def dictAppend {V : Type} (d : Dict V) (k : ℤ) (v : List V) : Dict V :=
  d.map fun q => if q.1 = k then (q.1, q.2 ++ [v]) else q

/-- The readout loop `for layer, hook in zip(layers, hooks): acts[layer].append(hook.out[0, -1])`
(source lines 64-65). -/
def readLoop {V : Type} (acts : Dict V) : List (ℤ × RegHook V) → Except Err (Dict V)
  | [] => Except.ok acts
  | (l, e) :: rest =>
    match hookLast e with
    | Except.error err => Except.error err
    | Except.ok v => readLoop (dictAppend acts l v) rest

/-- The statement loop of `get_acts` (source lines 60-65): tokenize, run
the forward pass (firing every registered hook), then read each hook out.
Returns the registered hooks as left at exit, the containers, and the
pending exception if one was raised. -/
def processLoop {V A : Type} (m : CModel V A) (layers : List ℤ)
    (entries : List (RegHook V)) (acts : Dict V) :
    List String → List (RegHook V) × Dict V × Option Err
  | [] => (entries, acts, none)
  | s :: rest =>
    match m.tokenize s with
    | Except.error e => (entries, acts, some e)
    | Except.ok toks =>
      match m.forward toks with
      | Except.error e => (entries, acts, some e)
      | Except.ok _ =>
        let fired := fireHooks m toks entries
        match readLoop acts (layers.zip fired) with
        | Except.error e => (fired, acts, some e)
        | Except.ok acts' => processLoop m layers fired acts' rest

/-- The stacking loop (source lines 67-68): `t.stack(act)` raises a
RuntimeError on an empty list; on a nonempty list the stacked tensor holds
the same rows (`.float()` does not change the embedded values). -/
def stackActs {V : Type} : Dict V → Except Err (Dict V)
  | [] => Except.ok []
  | (k, vs) :: rest =>
    match vs with
    | [] => Except.error Err.stackErr
    | _ =>
      match stackActs rest with
      | Except.error e => Except.error e
      | Except.ok rest' => Except.ok ((k, vs) :: rest')

/-- `get_acts` (source lines 46-74).  The second component is the number
of forward hooks still registered on the model when the call exits: the
removal loop (lines 71-72) runs only after a successful stacking, so a
pending exception leaves every hook in place. -/
def get_acts {V A : Type} (m : CModel V A) (statements : List String)
    (layers : List ℤ) : Except Err (Dict V) × ℕ :=
  match registerLoop m [] layers with
  | (hooks, some e) => (Except.error e, hooks.length)
  | (hooks, none) =>
    match processLoop m layers hooks (dictInit layers) statements with
    | (hooks', _, some e) => (Except.error e, hooks'.length)
    | (hooks', acts1, none) =>
      match stackActs acts1 with
      | Except.error e => (Except.error e, hooks'.length)
      | Except.ok acts2 => (Except.ok acts2, 0)

/-- The sentinel resolution in `__main__` (source lines 120-122):
`if layers == [-1]: layers = list(range(len(model.model.layers)))`. -/
def resolveLayers (layers : List ℤ) (nblocks : ℕ) : List ℤ :=
  if layers = [(-1 : ℤ)] then (List.range nblocks).map (fun (i : ℕ) => (i : ℤ)) else layers

/-- The scoring model seen by `score_probs`: `tokenize` is
`tokenizer.encode` (total here: the scorer claims are about the value
computed, not about tokenizer failure); `logits input p j` is the output
logit at position `p` for vocabulary entry `j` when the model runs on
`input`; `vocab` is the vocabulary size.  The batch dimension of size one
is elided.  Logits are real numbers: the float tensor is idealised. -/
structure SModel where
  vocab : ℕ
  tokenize : String → List ℕ
  logits : List ℕ → ℕ → ℕ → ℝ

/-- `softmax(-1)` at one position: entry `j` of the softmax of the logit
row `f` over vocabulary entries `0 .. V-1`. -/
noncomputable def softmaxP (f : ℕ → ℝ) (V j : ℕ) : ℝ :=
  Real.exp (f j) / ∑ k ∈ Finset.range V, Real.exp (f k)

/-- `score_probs` (source lines 76-82): run the model once on the
tokenized text and return `t.sum(outputs.logits.softmax(-1))` — the
softmax over the vocabulary dimension at every position, summed over all
positions and vocabulary entries. -/
noncomputable def score_probs (m : SModel) (statement : String) : ℝ :=
  let input_ids := m.tokenize statement
  ∑ p ∈ Finset.range input_ids.length,
    ∑ j ∈ Finset.range m.vocab, softmaxP (m.logits input_ids p) m.vocab j

/-- Python tuple unpacking `i, statement = s` where `s` is a string:
iterating a string yields its characters, and the unpack succeeds exactly
when there are two of them; otherwise a ValueError is raised. -/
def pyUnpack2 (s : String) : Except Err (Char × Char) :=
  match s.toList with
  | [a, b] => Except.ok (a, b)
  | _ => Except.error Err.valueErr

/-- Python list indexing with a string key (`correct_answers[i]` where
`i` is a character from the unpack above): always a TypeError. -/
def pyStrKeyGet (_l : List String) (_i : Char) : Except Err String :=
  Except.error Err.typeErr

/-- Python `max` on a list: ValueError on an empty list. -/
def pyMax {S : Type} [LinearOrder S] : List S → Except Err S
  | [] => Except.error Err.valueErr
  | x :: xs => Except.ok (xs.foldl max x)

/-- Python list assignment `labels[i] = label` with a string index:
always a TypeError. -/
def pySetAtChar (_labels : List Bool) (_i : Char) (_v : Bool) :
    Except Err (List Bool) :=
  Except.error Err.typeErr

/-- The loop body of `evaluate` (source lines 88-96), translated
line by line.  `score` abstracts `score_probs tokenizer model device`.
`for i, statement in statements` unpacks each statement string as a
2-tuple of characters; `correct_answers[i]` then indexes a list with a
character.  Everything after that line is the remainder of the source
body, reachable only if those steps succeeded. -/
def evaluateGo {S : Type} [LinearOrder S] (score : String → S)
    (correct_answers incorrect_answers : List String) :
    List Bool → List String → Except Err (List Bool)
  | labels, [] => Except.ok labels
  | labels, s :: rest =>
    match pyUnpack2 s with
    | Except.error e => Except.error e
    | Except.ok (i, statement) =>
      match pyStrKeyGet correct_answers i with
      | Except.error e => Except.error e
      | Except.ok ca =>
        let correct := String.append (String.append statement.toString " ") ca
        let correct_prob := score correct
        let incorrects := incorrect_answers.map
          (fun incorrect => String.append (String.append statement.toString " ") incorrect)
        let incorrect_probs := incorrects.map score
        match pyMax incorrect_probs with
        | Except.error e => Except.error e
        | Except.ok mx =>
          let label := decide (correct_prob > mx)
          match pySetAtChar labels i label with
          | Except.error e => Except.error e
          | Except.ok labels' =>
            evaluateGo score correct_answers incorrect_answers labels' rest

/-- `evaluate` (source lines 85-97): `labels = [0]*len(statements)` then
the loop above; the initial `0` entries are embedded as `false`. -/
def evaluate {S : Type} [LinearOrder S] (score : String → S)
    (statements correct_answers incorrect_answers : List String) :
    Except Err (List Bool) :=
  evaluateGo score correct_answers incorrect_answers
    (List.replicate statements.length false) statements

/-- Instrumentation of `evaluate`: the texts handed to `score_probs`, in
call order, before the run aborts.  It follows the control flow of
`evaluateGo`: when a step raises, no later text is scored. -/
def evaluateTraceGo (correct_answers incorrect_answers : List String) :
    List String → List String
  | [] => []
  | s :: rest =>
    match pyUnpack2 s with
    | Except.error _ => []
    | Except.ok (_i, statement) =>
      match pyStrKeyGet correct_answers _i with
      | Except.error _ => []
      | Except.ok ca =>
        (String.append (String.append statement.toString " ") ca) ::
          incorrect_answers.map
            (fun incorrect => String.append (String.append statement.toString " ") incorrect)
          ++ evaluateTraceGo correct_answers incorrect_answers rest

/-- The texts scored by `evaluate statements correct_answers incorrect_answers`. -/
def evaluateTrace (statements correct_answers incorrect_answers : List String) :
    List String :=
  evaluateTraceGo correct_answers incorrect_answers statements

/-- `range(0, stop, 25)` as iterated by the driver loop
`for idx in range(0, len(statements), 25)` (source line 127), starting
from `start`. -/
def rangeStep25 (stop start : ℕ) : List ℕ :=
  if h : start < stop then start :: rangeStep25 stop (start + 25) else []
termination_by stop - start
decreasing_by omega

/-- The chunks the driver feeds to `get_acts` and `evaluate`: the slices
`statements[idx : idx + 25]` for `idx in range(0, len(statements), 25)`.
A Python slice `l[i : i + 25]` is `(l.drop i).take 25`. -/
def chunks {α : Type} (l : List α) : List (List α) :=
  (rangeStep25 l.length 0).map fun idx => (l.drop idx).take 25

/-- A model whose tokenizer always raises: the fault injected mid-batch
for the hook-accounting analysis. -/
def M1 : CModel Unit Unit :=
  { nblocks := 1
    tokenize := fun _ => Except.error Err.tokenizeErr
    forward := fun _ => Except.ok ()
    blockOut := fun _ _ => ([], ()) }

/-- A small healthy model: two blocks, every statement tokenizes to the
single token `0`, each block's primary output is one position holding the
one-entry vector with the block index. -/
def M2 : CModel ℤ Unit :=
  { nblocks := 2
    tokenize := fun _ => Except.ok [0]
    forward := fun _ => Except.ok ()
    blockOut := fun b _ => ([[(b : ℤ)]], ()) }

/-- A small scoring model: vocabulary of size two, a beginning-of-sequence
token followed by one token per character, all logits zero. -/
noncomputable def SM : SModel :=
  { vocab := 2
    tokenize := fun s => 0 :: s.toList.map (fun _ => 1)
    logits := fun _ _ _ => 0 }

theorem registerLoop_valid {V A : Type} (m : CModel V A) (layers : List ℤ)
    (hval : ∀ l ∈ layers, (pyIndex l m.nblocks).isSome) :
    ∀ acc : List (RegHook V),
    registerLoop m acc layers =
      (acc ++ layers.map (fun l => { block := (pyIndex l m.nblocks).getD 0, hook := {} }),
       none) := by
  induction layers with
  | nil => intro acc; simp [registerLoop]
  | cons l rest ih =>
    intro acc
    obtain ⟨b, hb⟩ := Option.isSome_iff_exists.mp (hval l (by simp))
    have ihr := ih (fun x hx => hval x (by simp [hx])) (acc ++ [{ block := b, hook := {} }])
    simp only [registerLoop, hb, ihr, hb, Option.getD_some, List.map_cons, List.append_assoc,
      List.singleton_append]

theorem fireHooks_length {V A : Type} (m : CModel V A) (toks : List ℕ)
    (entries : List (RegHook V)) : (fireHooks m toks entries).length = entries.length := by
  simp [fireHooks]

theorem fireHooks_map {V A : Type} (m : CModel V A) (toks : List ℕ) (L : List ℤ)
    (β : ℤ → ℕ) (h₀ : ℤ → Hook V) :
    fireHooks m toks (L.map fun l => { block := β l, hook := h₀ l }) =
      L.map fun l => { block := β l, hook := { out := some (m.blockOut (β l) toks).1 } } := by
  simp only [fireHooks, List.map_map]
  rfl

theorem processLoop_len {V A : Type} (m : CModel V A) (layers : List ℤ) :
    ∀ (ss : List String) (es : List (RegHook V)) (D : Dict V),
    ((processLoop m layers es D ss).1).length = es.length := by
  intro ss
  induction ss with
  | nil => intro es D; rfl
  | cons s rest ih =>
    intro es D
    cases htok : m.tokenize s with
    | error e => simp [processLoop, htok]
    | ok toks =>
      cases hfw : m.forward toks with
      | error e => simp [processLoop, htok, hfw]
      | ok u =>
        cases hr : readLoop D (layers.zip (fireHooks m toks es)) with
        | error e => simp [processLoop, htok, hfw, hr, fireHooks_length]
        | ok acts' => simp [processLoop, htok, hfw, hr, ih, fireHooks_length]

theorem dictAppend_append {V : Type} (d₁ d₂ : Dict V) (k : ℤ) (v : List V) :
    dictAppend (d₁ ++ d₂) k v = dictAppend d₁ k v ++ dictAppend d₂ k v := by
  simp [dictAppend]

theorem dictAppend_no_key {V : Type} (k : ℤ) (v : List V) :
    ∀ d : Dict V, (∀ q ∈ d, q.1 ≠ k) → dictAppend d k v = d := by
  intro d
  induction d with
  | nil => intro _; rfl
  | cons q d' ih =>
    intro h
    have hq : ¬(q.1 = k) := h q (by simp)
    simp only [dictAppend, List.map_cons, if_neg hq]
    have := ih (fun p hp => h p (by simp [hp]))
    simp only [dictAppend] at this
    simp [this]

theorem readLoop_spec {V : Type} (g : ℤ → RegHook V) (r : ℤ → List V) :
    ∀ (L : List ℤ) (E : Dict V) (f : ℤ → List (List V)),
    L.Nodup → (∀ q ∈ E, q.1 ∉ L) →
    (∀ l ∈ L, hookLast (g l) = Except.ok (r l)) →
    readLoop (E ++ L.map fun l => (l, f l)) (L.map fun l => (l, g l)) =
      Except.ok (E ++ L.map fun l => (l, f l ++ [r l])) := by
  intro L
  induction L with
  | nil => intro E f _ _ _; simp [readLoop]
  | cons a L' ih =>
    intro E f hnd hE hr
    have ha : hookLast (g a) = Except.ok (r a) := hr a (by simp)
    have hanot : a ∉ L' := (List.nodup_cons.mp hnd).1
    simp only [List.map_cons, List.cons_append, readLoop, ha]
    have hstep : dictAppend (E ++ (a, f a) :: L'.map fun l => (l, f l)) a (r a) =
        (E ++ [(a, f a ++ [r a])]) ++ L'.map fun l => (l, f l) := by
      rw [show (E ++ (a, f a) :: L'.map fun l => (l, f l)) =
            E ++ ([(a, f a)] ++ L'.map fun l => (l, f l)) by simp,
          dictAppend_append, dictAppend_append]
      rw [dictAppend_no_key a (r a) E (fun q hq => by
            intro hk; exact (hE q hq) (by simp [hk]))]
      rw [dictAppend_no_key a (r a) (L'.map fun l => (l, f l)) (fun q hq => by
            obtain ⟨l, hl, rfl⟩ := List.mem_map.mp hq
            intro hk
            exact hanot (hk ▸ hl))]
      simp [dictAppend]
    rw [show ((a, f a) :: L'.map fun l => (l, f l)) =
          (List.map (fun l => (l, f l)) (a :: L')) by simp] at hstep
    simp only [List.map_cons, List.cons_append] at hstep ⊢
    rw [hstep]
    have ihr := ih (E ++ [(a, f a ++ [r a])]) f (List.nodup_cons.mp hnd).2
      (fun q hq => by
        rcases List.mem_append.mp hq with h1 | h1
        · exact fun hm => hE q h1 (by simp [hm])
        · simp only [List.mem_singleton] at h1
          subst h1
          simpa using hanot)
      (fun l hl => hr l (List.mem_cons_of_mem a hl))
    rw [ihr]
    simp

theorem getLast?_eq_some_getLastD {α : Type} :
    ∀ (l : List α) (d : α), l ≠ [] → l.getLast? = some (l.getLastD d) := by
  intro l
  induction l with
  | nil => intro d h; exact absurd rfl h
  | cons x t ih =>
    intro d _
    cases t with
    | nil => rfl
    | cons y t' =>
      rw [List.getLast?_cons_cons, List.getLastD_cons, ih x (by simp)]

theorem getLastD_irrel {α : Type} (l : List α) (d₁ d₂ : α) (h : l ≠ []) :
    l.getLastD d₁ = l.getLastD d₂ := by
  have h1 := getLast?_eq_some_getLastD l d₁ h
  have h2 := getLast?_eq_some_getLastD l d₂ h
  rw [h1] at h2
  exact Option.some.inj h2

theorem hookLast_fired {V : Type} (b : ℕ) (mat : List (List V)) (h : mat ≠ []) :
    hookLast { block := b, hook := { out := some mat } } = Except.ok (lastTok mat) := by
  simp only [hookLast]
  rw [getLast?_eq_some_getLastD mat [] h]
  rfl

theorem zip_self_map {α β : Type} :
    ∀ (L : List α) (g : α → β), L.zip (L.map g) = L.map fun a => (a, g a)
  | [], _ => rfl
  | a :: t, g => by simp [zip_self_map t g]

theorem processLoop_good {V A : Type} (m : CModel V A) (L : List ℤ) (β : ℤ → ℕ)
    (tk : String → List ℕ) :
    ∀ (ss : List String) (h₀ : ℤ → Hook V) (f : ℤ → List (List V)),
    L.Nodup →
    (∀ s ∈ ss, m.tokenize s = Except.ok (tk s)) →
    (∀ s ∈ ss, m.forward (tk s) = Except.ok ()) →
    (∀ s ∈ ss, ∀ l ∈ L, (m.blockOut (β l) (tk s)).1 ≠ []) →
    processLoop m L (L.map fun l => { block := β l, hook := h₀ l })
        (L.map fun l => (l, f l)) ss =
      ((if ss.isEmpty then L.map fun l => { block := β l, hook := h₀ l }
        else L.map fun l =>
          { block := β l,
            hook := { out := some (m.blockOut (β l) (tk (ss.getLastD ""))).1 } }),
       (L.map fun l => (l, f l ++ ss.map fun s => lastTok (m.blockOut (β l) (tk s)).1)),
       none) := by
  intro ss
  induction ss with
  | nil => intro h₀ f _ _ _ _; simp [processLoop]
  | cons s rest ih =>
    intro h₀ f hnd htk hfw hout
    have htok := htk s (by simp)
    have hf := hfw s (by simp)
    have hfire := fireHooks_map m (tk s) L β h₀
    have hread := readLoop_spec
      (fun l => { block := β l, hook := { out := some (m.blockOut (β l) (tk s)).1 } })
      (fun l => lastTok (m.blockOut (β l) (tk s)).1) L [] f hnd (by simp)
      (fun l hl => hookLast_fired (β l) _ (hout s (by simp) l hl))
    simp only [List.nil_append] at hread
    have ihr := ih
      (fun l => { out := some (m.blockOut (β l) (tk s)).1 })
      (fun l => f l ++ [lastTok (m.blockOut (β l) (tk s)).1]) hnd
      (fun x hx => htk x (List.mem_cons_of_mem s hx))
      (fun x hx => hfw x (List.mem_cons_of_mem s hx))
      (fun x hx l hl => hout x (List.mem_cons_of_mem s hx) l hl)
    simp only [processLoop, htok, hf, hfire, zip_self_map, hread, ihr]
    cases rest with
    | nil => simp
    | cons r2 t2 => simp [List.append_assoc]

theorem dictSet_fresh {V : Type} (k : ℤ) (v : List (List V)) :
    ∀ (d : Dict V), (∀ q ∈ d, q.1 ≠ k) → dictSet d k v = d ++ [(k, v)] := by
  intro d h
  have hany : d.any (fun q => decide (q.1 = k)) = false := by
    simp only [List.any_eq_false, decide_eq_true_eq]
    exact h
  simp [dictSet, hany]

theorem dictInit_go {V : Type} :
    ∀ (L : List ℤ) (acc : Dict V), L.Nodup → (∀ l ∈ L, ∀ q ∈ acc, q.1 ≠ l) →
    L.foldl (fun d l => dictSet d l []) acc = acc ++ L.map fun l => (l, []) := by
  intro L
  induction L with
  | nil => intro acc _ _; simp
  | cons a t ih =>
    intro acc hnd hfresh
    have hanot : a ∉ t := (List.nodup_cons.mp hnd).1
    simp only [List.foldl_cons]
    rw [dictSet_fresh a [] acc (fun q hq => hfresh a (by simp) q hq)]
    rw [ih (acc ++ [(a, [])]) (List.nodup_cons.mp hnd).2 ?_]
    · simp
    · intro l hl q hq
      rcases List.mem_append.mp hq with h1 | h1
      · exact hfresh l (List.mem_cons_of_mem a hl) q h1
      · simp only [List.mem_singleton] at h1
        subst h1
        intro he
        refine hanot ?_
        rw [show a = l from he]
        exact hl

theorem dictInit_nodup {V : Type} (L : List ℤ) (h : L.Nodup) :
    dictInit (V := V) L = L.map fun l => (l, []) := by
  simpa [dictInit] using dictInit_go L ([] : Dict V) h (by simp)

theorem stackActs_all_nonempty {V : Type} :
    ∀ d : Dict V, (∀ q ∈ d, q.2 ≠ []) → stackActs d = Except.ok d := by
  intro d
  induction d with
  | nil => intro _; rfl
  | cons q t ih =>
    intro h
    obtain ⟨k, vs⟩ := q
    cases vs with
    | nil => exact absurd rfl (h (k, []) (by simp))
    | cons v vt =>
      simp [stackActs, ih (fun p hp => h p (by simp [hp]))]

theorem get_acts_ok {V A : Type} (m : CModel V A) (ss : List String) (layers : List ℤ)
    (hne : ss ≠ []) (hnd : layers.Nodup)
    (hval : ∀ l ∈ layers, (pyIndex l m.nblocks).isSome)
    (tk : String → List ℕ)
    (htk : ∀ s ∈ ss, m.tokenize s = Except.ok (tk s))
    (hfw : ∀ s ∈ ss, m.forward (tk s) = Except.ok ())
    (hout : ∀ s ∈ ss, ∀ l ∈ layers,
      (m.blockOut ((pyIndex l m.nblocks).getD 0) (tk s)).1 ≠ []) :
    get_acts m ss layers =
      (Except.ok (layers.map fun l =>
        (l, ss.map fun s =>
          lastTok (m.blockOut ((pyIndex l m.nblocks).getD 0) (tk s)).1)), 0) := by
  have hreg := registerLoop_valid m layers hval []
  simp only [List.nil_append] at hreg
  have hinit := dictInit_nodup (V := V) layers hnd
  have hproc := processLoop_good m layers (fun l => (pyIndex l m.nblocks).getD 0) tk ss
      (fun _ => {}) (fun _ => []) hnd htk hfw hout
  simp only [List.nil_append] at hproc
  have hstack := stackActs_all_nonempty
      (layers.map fun l => (l, ss.map fun s =>
        lastTok (m.blockOut ((pyIndex l m.nblocks).getD 0) (tk s)).1))
      (by
        intro q hq
        obtain ⟨l, _, rfl⟩ := List.mem_map.mp hq
        intro hc
        exact hne (by simpa using hc))
  simp only [get_acts, hreg, hinit, hproc, hstack]

theorem get_acts_counts {V A : Type} (m : CModel V A) (ss : List String) (layers : List ℤ)
    (hval : ∀ l ∈ layers, (pyIndex l m.nblocks).isSome) :
    (∀ d, (get_acts m ss layers).1 = Except.ok d → (get_acts m ss layers).2 = 0)
    ∧ (∀ e, (get_acts m ss layers).1 = Except.error e →
        (get_acts m ss layers).2 = layers.length) := by
  have hreg := registerLoop_valid m layers hval []
  simp only [List.nil_append] at hreg
  rcases hp : processLoop m layers
      (layers.map fun l => { block := (pyIndex l m.nblocks).getD 0, hook := {} })
      (dictInit layers) ss with ⟨es', d', err⟩
  have hlen' : es'.length = layers.length := by
    have h := processLoop_len m layers ss
      (layers.map fun l => { block := (pyIndex l m.nblocks).getD 0, hook := {} })
      (dictInit layers)
    rw [hp] at h
    simpa using h
  cases err with
  | some e =>
    constructor
    · intro d hd
      simp [get_acts, hreg, hp] at hd
    · intro e' _
      simp [get_acts, hreg, hp, hlen']
  | none =>
    cases hs : stackActs d' with
    | error e =>
      constructor
      · intro d hd
        simp [get_acts, hreg, hp, hs] at hd
      · intro e' _
        simp [get_acts, hreg, hp, hs, hlen']
    | ok d2 =>
      constructor
      · intro d _
        simp [get_acts, hreg, hp, hs]
      · intro e' he'
        simp [get_acts, hreg, hp, hs] at he'

theorem get_acts_nil_stack_error {V A : Type} (m : CModel V A) (layers : List ℤ)
    (h1 : layers ≠ []) (hnd : layers.Nodup)
    (hval : ∀ l ∈ layers, (pyIndex l m.nblocks).isSome) :
    get_acts m ([] : List String) layers = (Except.error Err.stackErr, layers.length) := by
  cases layers with
  | nil => exact absurd rfl h1
  | cons a t =>
    have hreg := registerLoop_valid m (a :: t) hval []
    simp only [List.nil_append] at hreg
    have hinit := dictInit_nodup (V := V) (a :: t) hnd
    simp [get_acts, hreg, processLoop, hinit, stackActs]

theorem score_probs_eq_length (m : SModel) (text : String) (hv : 0 < m.vocab) :
    score_probs m text = ((m.tokenize text).length : ℝ) := by
  have inner : ∀ p : ℕ,
      ∑ j ∈ Finset.range m.vocab, softmaxP (m.logits (m.tokenize text) p) m.vocab j = 1 := by
    intro p
    have hpos : (0 : ℝ) < ∑ k ∈ Finset.range m.vocab,
        Real.exp (m.logits (m.tokenize text) p k) :=
      Finset.sum_pos (fun i _ => Real.exp_pos _)
        (Finset.nonempty_range_iff.mpr (Nat.pos_iff_ne_zero.mp hv))
    simp only [softmaxP]
    rw [← Finset.sum_div]
    exact div_self (ne_of_gt hpos)
  simp only [score_probs]
  rw [Finset.sum_congr rfl (fun p _ => inner p)]
  simp

theorem evaluateGo_cons_error {S : Type} [LinearOrder S] (score : String → S)
    (ca ia : List String) (labels : List Bool) (s : String) (rest : List String) :
    ∃ e, evaluateGo score ca ia labels (s :: rest) = Except.error e := by
  cases hu : pyUnpack2 s with
  | error e => exact ⟨e, by simp [evaluateGo, hu]⟩
  | ok p =>
    obtain ⟨i, st⟩ := p
    exact ⟨Err.typeErr, by simp [evaluateGo, hu, pyStrKeyGet]⟩

theorem evaluateTrace_always_empty (ss ca ia : List String) :
    evaluateTrace ss ca ia = [] := by
  cases ss with
  | nil => rfl
  | cons s rest =>
    cases hu : pyUnpack2 s with
    | error e => simp [evaluateTrace, evaluateTraceGo, hu]
    | ok p =>
      obtain ⟨i, st⟩ := p
      simp [evaluateTrace, evaluateTraceGo, hu, pyStrKeyGet]

theorem rangeStep25_neg (stop start : ℕ) (h : ¬ start < stop) :
    rangeStep25 stop start = [] := by
  rw [rangeStep25.eq_def]
  simp [h]

theorem rangeStep25_pos (stop start : ℕ) (h : start < stop) :
    rangeStep25 stop start = start :: rangeStep25 stop (start + 25) := by
  rw [rangeStep25.eq_def]
  simp [h]

theorem rangeStep25_length (stop start : ℕ) :
    (rangeStep25 stop start).length = (stop - start + 24) / 25 := by
  by_cases h : start < stop
  · rw [rangeStep25_pos stop start h]
    have ih := rangeStep25_length stop (start + 25)
    simp only [List.length_cons, ih]
    omega
  · rw [rangeStep25_neg stop start h]
    simp only [List.length_nil]
    omega
termination_by stop - start
decreasing_by omega

theorem rangeStep25_shift (stop start : ℕ) :
    rangeStep25 (stop + 25) (start + 25) = (rangeStep25 stop start).map (fun x => x + 25) := by
  by_cases h : start < stop
  · rw [rangeStep25_pos stop start h, rangeStep25_pos (stop + 25) (start + 25) (by omega)]
    simp [rangeStep25_shift stop (start + 25)]
  · rw [rangeStep25_neg stop start h, rangeStep25_neg (stop + 25) (start + 25) (by omega)]
    rfl
termination_by stop - start
decreasing_by omega

theorem chunks_nil {α : Type} : chunks ([] : List α) = [] := by
  simp [chunks, rangeStep25_neg 0 0 (by omega)]

theorem chunks_ne_nil {α : Type} (l : List α) (h : l ≠ []) : chunks l ≠ [] := by
  have hpos : 0 < l.length := List.length_pos.mpr h
  simp [chunks, rangeStep25_pos _ _ hpos]

theorem chunks_cons {α : Type} (l : List α) (h : l ≠ []) :
    chunks l = l.take 25 :: chunks (l.drop 25) := by
  have hpos : 0 < l.length := List.length_pos.mpr h
  simp only [chunks]
  rw [rangeStep25_pos _ _ hpos]
  simp only [List.map_cons, List.drop_zero]
  congr 1
  by_cases h25 : l.length ≤ 25
  · rw [rangeStep25_neg l.length 25 (by omega)]
    rw [rangeStep25_neg (l.drop 25).length 0 (by simp [List.length_drop]; omega)]
    rfl
  · have hs := rangeStep25_shift (l.length - 25) 0
    simp only [Nat.zero_add] at hs
    rw [show l.length = l.length - 25 + 25 by omega, hs, List.length_drop]
    simp only [List.map_map]
    apply List.map_congr_left
    intro idx _
    simp only [Function.comp, List.drop_drop]
    rw [Nat.add_comm idx 25]

theorem chunks_flatten {α : Type} (l : List α) : (chunks l).flatten = l := by
  by_cases h : l = []
  · subst h
    rw [chunks_nil]
    rfl
  · rw [chunks_cons l h]
    simp only [List.flatten_cons]
    rw [chunks_flatten (l.drop 25)]
    exact List.take_append_drop 25 l
termination_by l.length
decreasing_by
  have := List.length_pos.mpr h
  simp only [List.length_drop]
  omega

theorem chunks_sizes {α : Type} (l : List α) (h : l ≠ []) :
    (∀ c ∈ (chunks l).dropLast, c.length = 25)
    ∧ 0 < ((chunks l).getLastD []).length ∧ ((chunks l).getLastD []).length ≤ 25 := by
  by_cases h25 : l.length ≤ 25
  · have hd : l.drop 25 = [] := List.drop_eq_nil_of_le h25
    rw [chunks_cons l h, hd, chunks_nil]
    refine ⟨by simp, ?_, ?_⟩
    · simp only [List.getLastD_cons, List.getLastD_nil, List.length_take]
      have := List.length_pos.mpr h
      omega
    · simp only [List.getLastD_cons, List.getLastD_nil, List.length_take]
      omega
  · have hdne : l.drop 25 ≠ [] := by
      apply List.length_pos.mp
      simp only [List.length_drop]
      omega
    obtain ⟨ih1, ih2, ih3⟩ := chunks_sizes (l.drop 25) hdne
    have hcne : chunks (l.drop 25) ≠ [] := chunks_ne_nil _ hdne
    rw [chunks_cons l h]
    refine ⟨?_, ?_, ?_⟩
    · intro c hc
      rw [List.dropLast_cons_of_ne_nil hcne] at hc
      rcases List.mem_cons.mp hc with rfl | hc2
      · simp only [List.length_take]
        omega
      · exact ih1 c hc2
    · rw [List.getLastD_cons, getLastD_irrel _ (l.take 25) [] hcne]
      exact ih2
    · rw [List.getLastD_cons, getLastD_irrel _ (l.take 25) [] hcne]
      exact ih3
termination_by l.length
decreasing_by
  have := List.length_pos.mpr h
  simp only [List.length_drop]
  omega

theorem chunks_length {α : Type} (l : List α) :
    (chunks l).length = (l.length + 24) / 25 := by
  simp [chunks, rangeStep25_length]

theorem pyIndex_ofNat (i n : ℕ) (h : i < n) : pyIndex (i : ℤ) n = some i := by
  simp [pyIndex, h]

theorem pyIndex_neg_one (n : ℕ) (h : 0 < n) : pyIndex (-1 : ℤ) n = some (n - 1) := by
  simp only [pyIndex]
  rw [if_neg (by omega), if_pos (by omega)]
  congr 1
  omega

/-- Claim C1 (the code contradicts it): the claim says `evaluate` returns
one label per statement, label true iff the correct score strictly exceeds
the maximum incorrect score.  In fact `for i, statement in statements`
unpacks each statement string as a pair of characters, so for every
non-empty statement list `evaluate` raises (ValueError for statements not
of length two, otherwise TypeError at `correct_answers[i]`) and returns
no labels at all. -/
theorem evaluate_nonempty_raises {S : Type} [LinearOrder S] (score : String → S)
    (ss ca ia : List String) (h : ss ≠ []) :
    ∃ e, evaluate score ss ca ia = Except.error e := by
  cases ss with
  | nil => exact absurd rfl h
  | cons s rest =>
    simp only [evaluate]
    exact evaluateGo_cons_error score ca ia
      (List.replicate (s :: rest).length false) s rest

/-- Witness for C1's theorem at the concrete failing input
`statements = ["ab"]`, `correct_answers = ["c"]`, `incorrect_answers = ["d"]`. -/
theorem evaluate_nonempty_raises_w :
    ((["ab"] : List String) ≠ [])
    ∧ ∃ e, evaluate (fun _ => (0 : ℚ)) ["ab"] ["c"] ["d"] = Except.error e :=
  ⟨by decide, evaluate_nonempty_raises (fun _ => (0 : ℚ)) ["ab"] ["c"] ["d"] (by decide)⟩

/-- Claim C4 (the code contradicts it): the claim says each statement's
correct concatenation and exactly its own incorrect concatenations are
scored.  In fact `evaluate` aborts before handing any text to
`score_probs` — the scored-text trace is empty for every input — and its
comprehension over `incorrect_answers` ranges over the whole parallel
list rather than statement `i`'s own answers. -/
theorem evaluate_scores_no_text (ss ca ia : List String) :
    evaluateTrace ss ca ia = [] :=
  evaluateTrace_always_empty ss ca ia

/-- Claim C2 (amended): the registration loop registers exactly
`len(layers)` handles, the statement loop never changes the number of
registered hooks, and after `get_acts` returns the count is zero on
success — but on any error exit (tokenization, forward pass, readout or
stacking) the hooks are never removed: the count remains `len(layers)`. -/
theorem get_acts_hook_accounting {V A : Type} (m : CModel V A) (ss : List String)
    (layers : List ℤ)
    (hval : ∀ l ∈ layers, (pyIndex l m.nblocks).isSome) :
    ((registerLoop m [] layers).1.length = layers.length
      ∧ (registerLoop m [] layers).2 = none)
    ∧ (∀ (es : List (RegHook V)) (D : Dict V) (ss' : List String),
        ((processLoop m layers es D ss').1).length = es.length)
    ∧ (∀ d, (get_acts m ss layers).1 = Except.ok d → (get_acts m ss layers).2 = 0)
    ∧ (∀ e, (get_acts m ss layers).1 = Except.error e →
        (get_acts m ss layers).2 = layers.length) := by
  have hreg := registerLoop_valid m layers hval []
  exact ⟨⟨by simp [hreg], by simp [hreg]⟩,
    fun es D ss' => processLoop_len m layers ss' es D,
    (get_acts_counts m ss layers hval).1,
    (get_acts_counts m ss layers hval).2⟩

/-- Counterexample to C2 as stated: with a tokenizer that raises on the
first statement of the batch, `get_acts` exits with its one registered
hook still attached — the count after return is 1, not 0. -/
theorem get_acts_hook_leak_cex :
    (get_acts M1 ["x"] [(0 : ℤ)]).1 = Except.error Err.tokenizeErr
    ∧ (get_acts M1 ["x"] [(0 : ℤ)]).2 = 1 ∧ (1 : ℕ) ≠ 0 :=
  ⟨rfl, rfl, by decide⟩

/-- Witness for C2's amended theorem: the error-exit count equals
`len(layers)` at the concrete faulting model `M1`. -/
theorem get_acts_hook_accounting_w :
    (∀ l ∈ [(0 : ℤ)], (pyIndex l M1.nblocks).isSome)
    ∧ (get_acts M1 ["y"] [(0 : ℤ)]).2 = [(0 : ℤ)].length :=
  ⟨by decide,
    (get_acts_hook_accounting M1 ["y"] [(0 : ℤ)] (by decide)).2.2.2 Err.tokenizeErr rfl⟩

/-- Claim C3: for a non-empty statement list and a duplicate-free list of
valid layer indices, when every statement tokenizes, runs forward and
yields non-empty block outputs, `get_acts` returns the mapping whose keys
are exactly the requested layers in order, each value being one
last-token activation per statement, in input order. -/
theorem get_acts_layer_map {V A : Type} (m : CModel V A) (ss : List String)
    (layers : List ℤ) (hne : ss ≠ []) (hnd : layers.Nodup)
    (hval : ∀ l ∈ layers, (pyIndex l m.nblocks).isSome)
    (tk : String → List ℕ)
    (htk : ∀ s ∈ ss, m.tokenize s = Except.ok (tk s))
    (hfw : ∀ s ∈ ss, m.forward (tk s) = Except.ok ())
    (hout : ∀ s ∈ ss, ∀ l ∈ layers,
      (m.blockOut ((pyIndex l m.nblocks).getD 0) (tk s)).1 ≠ []) :
    get_acts m ss layers =
      (Except.ok (layers.map fun l =>
        (l, ss.map fun s =>
          lastTok (m.blockOut ((pyIndex l m.nblocks).getD 0) (tk s)).1)), 0) :=
  get_acts_ok m ss layers hne hnd hval tk htk hfw hout

/-- Witness for C3's theorem on the healthy model `M2`, two statements and
layers `[0, 1]`. -/
theorem get_acts_layer_map_w :
    ((["p", "q"] : List String) ≠ []
      ∧ ([(0 : ℤ), 1] : List ℤ).Nodup
      ∧ (∀ l ∈ ([(0 : ℤ), 1] : List ℤ), (pyIndex l M2.nblocks).isSome)
      ∧ (∀ s ∈ (["p", "q"] : List String), M2.tokenize s = Except.ok [0])
      ∧ (∀ s ∈ (["p", "q"] : List String), M2.forward [0] = Except.ok ())
      ∧ (∀ s ∈ (["p", "q"] : List String), ∀ l ∈ ([(0 : ℤ), 1] : List ℤ),
          (M2.blockOut ((pyIndex l M2.nblocks).getD 0) [0]).1 ≠ []))
    ∧ get_acts M2 ["p", "q"] [(0 : ℤ), 1] =
      (Except.ok (([(0 : ℤ), 1] : List ℤ).map fun l =>
        (l, (["p", "q"] : List String).map fun _s =>
          lastTok (M2.blockOut ((pyIndex l M2.nblocks).getD 0) [0]).1)), 0) :=
  ⟨⟨by decide, by decide, by decide, by decide, by decide, by decide⟩,
    get_acts_layer_map M2 ["p", "q"] [(0 : ℤ), 1] (by decide) (by decide) (by decide)
      (fun _ => [0]) (by decide) (by decide) (by decide)⟩

/-- Claim C5: `score_probs` returns the sum, over all positions and all
vocabulary entries, of the softmax of the logits over the vocabulary
dimension (first conjunct, definitional) — and that aggregate is exactly
the tokenized length of the text: the metric is length-dominated and kept
as-is. -/
theorem score_probs_value (m : SModel) (text : String) (hv : 0 < m.vocab) :
    score_probs m text =
      (∑ p ∈ Finset.range (m.tokenize text).length,
        ∑ j ∈ Finset.range m.vocab,
          Real.exp (m.logits (m.tokenize text) p j)
            / ∑ k ∈ Finset.range m.vocab, Real.exp (m.logits (m.tokenize text) p k))
    ∧ score_probs m text = ((m.tokenize text).length : ℝ) :=
  ⟨rfl, score_probs_eq_length m text hv⟩

/-- Witness for C5's theorem on the concrete scorer `SM` ("ab" tokenizes
to three tokens, so the score is 3). -/
theorem score_probs_value_w : 0 < SM.vocab ∧ score_probs SM "ab" = 3 := by
  refine ⟨by decide, ?_⟩
  have h := (score_probs_value SM "ab" (by decide)).2
  rw [show (SM.tokenize "ab").length = 3 from rfl] at h
  simpa using h

/-- Claim C6: the driver's chunking of a dataset of `N` statements yields
exactly `ceil(N / 25)` contiguous chunks, each of length 25 except
possibly the last (which is non-empty and at most 25), and concatenating
the chunks in order reconstructs the original list. -/
theorem chunks_partition {α : Type} (l : List α) (hl : l ≠ []) :
    (chunks l).length = (l.length + 24) / 25
    ∧ (∀ c ∈ (chunks l).dropLast, c.length = 25)
    ∧ 0 < ((chunks l).getLastD []).length
    ∧ ((chunks l).getLastD []).length ≤ 25
    ∧ (chunks l).flatten = l := by
  obtain ⟨h1, h2, h3⟩ := chunks_sizes l hl
  exact ⟨chunks_length l, h1, h2, h3, chunks_flatten l⟩

/-- Witness for C6's theorem on a 26-element list (two chunks: 25 + 1). -/
theorem chunks_partition_w :
    (List.range 26 ≠ [])
    ∧ ((chunks (List.range 26)).length = ((List.range 26).length + 24) / 25
      ∧ (∀ c ∈ (chunks (List.range 26)).dropLast, c.length = 25)
      ∧ 0 < ((chunks (List.range 26)).getLastD []).length
      ∧ ((chunks (List.range 26)).getLastD []).length ≤ 25
      ∧ (chunks (List.range 26)).flatten = List.range 26) :=
  ⟨by decide, chunks_partition (List.range 26) (by decide)⟩

/-- Claim C7: `layers = [-1]` resolves to the full range `[0, nblocks)`
before registration, and registering over the resolved list attaches one
hook to every transformer block, in order, with no error. -/
theorem sentinel_resolves_all_layers {V A : Type} (m : CModel V A) :
    resolveLayers [(-1 : ℤ)] m.nblocks = (List.range m.nblocks).map (fun (i : ℕ) => (i : ℤ))
    ∧ registerLoop m [] (resolveLayers [(-1 : ℤ)] m.nblocks) =
      ((List.range m.nblocks).map fun i => { block := i, hook := ({} : Hook V) },
       none) := by
  have hres : resolveLayers [(-1 : ℤ)] m.nblocks =
      (List.range m.nblocks).map (fun (i : ℕ) => (i : ℤ)) := by
    unfold resolveLayers
    rw [if_pos rfl]
  have hval : ∀ l ∈ (List.range m.nblocks).map (fun (i : ℕ) => (i : ℤ)),
      (pyIndex l m.nblocks).isSome := by
    intro l hl
    obtain ⟨i, hi, rfl⟩ := List.mem_map.mp hl
    rw [pyIndex_ofNat i _ (List.mem_range.mp hi)]
    rfl
  refine ⟨hres, ?_⟩
  rw [hres, registerLoop_valid m _ hval []]
  simp only [List.nil_append, List.map_map, Prod.mk.injEq]
  refine ⟨?_, trivial⟩
  apply List.map_congr_left
  intro i hi
  simp only [Function.comp_apply]
  rw [pyIndex_ofNat i _ (List.mem_range.mp hi)]
  rfl

/-- Claim C9: the sentinel expansion fires only when the layers list is
exactly `[-1]`; any other list is passed through unchanged, and a `-1`
reaching registration selects the last transformer block by Python
negative indexing. -/
theorem sentinel_exact_match_only {V A : Type} (m : CModel V A) (ls : List ℤ)
    (n : ℕ) (hne : ls ≠ [(-1 : ℤ)]) (hpos : 0 < m.nblocks) :
    resolveLayers ls n = ls
    ∧ registerLoop m [] [(-1 : ℤ)] =
      ([{ block := m.nblocks - 1, hook := ({} : Hook V) }], none) := by
  constructor
  · simp [resolveLayers, hne]
  · have h := pyIndex_neg_one m.nblocks hpos
    simp [registerLoop, h]

/-- Witness for C9's theorem: `[-1, 0]` is not expanded, and on the
two-block model `M2` a lone `-1` registers on block 1. -/
theorem sentinel_exact_match_only_w :
    (([(-1 : ℤ), 0] : List ℤ) ≠ [(-1 : ℤ)] ∧ 0 < M2.nblocks)
    ∧ (resolveLayers [(-1 : ℤ), 0] 7 = [(-1 : ℤ), 0]
      ∧ registerLoop M2 [] [(-1 : ℤ)] =
        ([{ block := M2.nblocks - 1, hook := ({} : Hook ℤ) }], none)) :=
  ⟨⟨by decide, by decide⟩,
    sentinel_exact_match_only M2 [(-1 : ℤ), 0] 7 (by decide) (by decide)⟩

/-- Claim C10: on an empty statement list with a non-empty set of valid
layers, `get_acts` does not return a mapping of empty sequences:
`t.stack([])` raises, so the call exits with the stacking error (and, the
removal loop being unreached, all hooks still registered). -/
theorem get_acts_empty_raises {V A : Type} (m : CModel V A) (layers : List ℤ)
    (h1 : layers ≠ []) (hnd : layers.Nodup)
    (hval : ∀ l ∈ layers, (pyIndex l m.nblocks).isSome) :
    get_acts m ([] : List String) layers = (Except.error Err.stackErr, layers.length) :=
  get_acts_nil_stack_error m layers h1 hnd hval

/-- Witness for C10's theorem on the healthy model `M2` with layer list `[1]`. -/
theorem get_acts_empty_raises_w :
    (([(1 : ℤ)] : List ℤ) ≠ [] ∧ ([(1 : ℤ)] : List ℤ).Nodup
      ∧ (∀ l ∈ ([(1 : ℤ)] : List ℤ), (pyIndex l M2.nblocks).isSome))
    ∧ get_acts M2 ([] : List String) [(1 : ℤ)] =
      (Except.error Err.stackErr, ([(1 : ℤ)] : List ℤ).length) :=
  ⟨⟨by decide, by decide, by decide⟩,
    get_acts_empty_raises M2 [(1 : ℤ)] (by decide) (by decide) (by decide)⟩

/-- Claim C8: a hook invocation stores the primary component of the
block's output into its slot regardless of the previous slot content
(first conjunct: the result does not depend on the prior hook state, and
equals the primary output), and across a processed batch each registered
hook ends up holding exactly the primary output of its own block for the
last statement, its block field untouched and no other hook affected. -/
theorem hook_capture_semantics {V A : Type} (m : CModel V A) (L : List ℤ)
    (β : ℤ → ℕ) (h₀ : ℤ → Hook V) (ss : List String) (tk : String → List ℕ)
    (hss : ss ≠ []) (hnd : L.Nodup)
    (htk : ∀ s ∈ ss, m.tokenize s = Except.ok (tk s))
    (hfw : ∀ s ∈ ss, m.forward (tk s) = Except.ok ())
    (hout : ∀ s ∈ ss, ∀ l ∈ L, (m.blockOut (β l) (tk s)).1 ≠ []) :
    (∀ (h h' : Hook V) (inp inp' : List ℕ) (outp : List (List V) × A),
      Hook.call h inp outp = Hook.call h' inp' outp
      ∧ (Hook.call h inp outp).out = some outp.1)
    ∧ (processLoop m L (L.map fun l => { block := β l, hook := h₀ l })
        (dictInit L) ss).1 =
      L.map fun l =>
        { block := β l,
          hook := { out := some (m.blockOut (β l) (tk (ss.getLastD ""))).1 } } := by
  constructor
  · intro h h' inp inp' outp
    exact ⟨rfl, rfl⟩
  · cases ss with
    | nil => exact absurd rfl hss
    | cons s rest =>
      have hinit := dictInit_nodup (V := V) L hnd
      have hproc := processLoop_good m L β tk (s :: rest) h₀ (fun _ => []) hnd htk hfw hout
      rw [hinit]
      simp only [hproc, List.isEmpty_cons, Bool.false_eq_true, if_false]

/-- Witness for C8's theorem on the healthy model `M2`, layers `[0, 1]`
resolved by `Int.toNat`, batch `["u", "v"]`. -/
theorem hook_capture_semantics_w :
    ((["u", "v"] : List String) ≠ [] ∧ ([(0 : ℤ), 1] : List ℤ).Nodup
      ∧ (∀ s ∈ (["u", "v"] : List String), M2.tokenize s = Except.ok [0])
      ∧ (∀ s ∈ (["u", "v"] : List String), M2.forward [0] = Except.ok ())
      ∧ (∀ s ∈ (["u", "v"] : List String), ∀ l ∈ ([(0 : ℤ), 1] : List ℤ),
          (M2.blockOut l.toNat [0]).1 ≠ []))
    ∧ (processLoop M2 [(0 : ℤ), 1]
        (([(0 : ℤ), 1] : List ℤ).map fun l => { block := l.toNat, hook := {} })
        (dictInit [(0 : ℤ), 1]) ["u", "v"]).1 =
      ([(0 : ℤ), 1] : List ℤ).map fun l =>
        { block := l.toNat, hook := { out := some (M2.blockOut l.toNat [0]).1 } } :=
  ⟨⟨by decide, by decide, by decide, by decide, by decide⟩,
    (hook_capture_semantics M2 [(0 : ℤ), 1] (fun l => l.toNat) (fun _ => {})
      ["u", "v"] (fun _ => [0]) (by decide) (by decide) (by decide) (by decide)
      (by decide)).2⟩

end GenerateActs
